import Mathlib

/-!
Shallow embedding of the core of `src/main.py` (class `DownloadManager` of the
M3U8 downloader): manifest parsing (`parse_m3u8`), the per-segment retry loop
(`download_segment`), the scheduling loop of `start_download`, cooperative
cancellation (`stop_download` sets a monotone flag that the loops poll), and
the fallback merge path of `merge_files`.

Modelling conventions:
* Python strings are `List Char` (`Str`); file contents are `List Nat` (`Bytes`).
* The network is an oracle: a segment fetch attempt yields a `FetchOutcome` —
  `ok` (body streamed to the segment file), `reqFail` (the request or its
  status check raised before the file was opened), or `midFail` (the file was
  opened and partially written, then the streamed read raised).  The Python
  `try/except` that absorbs these exceptions is reflected by outcomes being
  data rather than exceptions.
* The shared cancellation flag `stop_requested` is an oracle `Nat → Bool`
  giving the value seen by each successive read; a caller of `stop_download`
  makes it monotonically true.
* The `as_completed` iteration order of `start_download` is an arbitrary
  permutation `order` of the segment indices.
* Recursions that Python expresses as loops are written with an explicit
  structural fuel argument (always called with a sufficient bound) so that
  every definition evaluates by `decide`/`rfl`.
-/

namespace M3U8

abbrev Str := List Char

abbrev Bytes := List Nat

/-- Whitespace stripped by Python's `str.strip()` (ASCII cases). -/
def isPySpace (c : Char) : Bool :=
  c = ' ' || c = '\t' || c = '\n' || c = '\r' || c = '\x0b' || c = '\x0c'

/-- Python `line.strip()`. -/
def pyStrip (l : Str) : Str :=
  ((l.dropWhile isPySpace).reverse.dropWhile isPySpace).reverse

/-- Python `str.splitlines()`: split on `\n`, `\r` and `\r\n` boundaries.
(The rarer Unicode line boundaries Python also splits on are not modelled;
unlike Python this version yields a final empty chunk when the string ends in
a line break and `[""]` on the empty string — every use below immediately
filters out blank lines, after which the two agree.) -/
def splitLines : Str → List Str
  | [] => [[]]
  | '\r' :: '\n' :: cs => [] :: splitLines cs
  | '\r' :: cs => [] :: splitLines cs
  | '\n' :: cs => [] :: splitLines cs
  | c :: cs =>
    match splitLines cs with
    | [] => [[c]]
    | l :: ls => (c :: l) :: ls

/-- The literal matched by the regex `#EXT-X-BYTERANGE` in `parse_m3u8`. -/
def brChars : Str := "#EXT-X-BYTERANGE".data

/-- Drop the rest of the current line: the regex tail `.*\n?` consumes every
character up to the next `\n` (`.` does not match `\n`) and the `\n` itself
when present. -/
def dropRestOfLine : Str → Str
  | [] => []
  | c :: cs => if c = '\n' then cs else dropRestOfLine cs

/-- Fuelled scan implementing `re.sub(r'#EXT-X-BYTERANGE.*\n?', '', content)`:
at each position where the literal matches, the match (rest of line plus the
following newline, if any) is removed and scanning resumes after it. -/
def subBRAux : Nat → Str → Str
  | 0, _ => []
  | _ + 1, [] => []
  | fuel + 1, c :: cs =>
    if (c :: cs).take brChars.length = brChars then
      subBRAux fuel (dropRestOfLine ((c :: cs).drop brChars.length))
    else
      c :: subBRAux fuel cs

/-- The regex substitution of `parse_m3u8` (fuel `s.length` always suffices:
each step consumes at least one character). -/
def subByteRange (s : Str) : Str := subBRAux s.length s

/-- Python `os.path.dirname`: everything before the last `/` (empty when
there is no `/`). -/
def dirname (s : Str) : Str :=
  (((s.reverse.dropWhile (fun c => ¬ c = '/')).drop 1)).reverse

/-- Boolean substring occurrence test (`pat` occurs somewhere in `s`). -/
def hasSub (pat : Str) : Str → Bool
  | [] => pat.isEmpty
  | c :: cs => ((c :: cs).take pat.length = pat : Bool) || hasSub pat (cs)

/-- Models `urllib.parse.urljoin(base, ref)` for the reference shapes arising
here: a reference that itself carries a scheme (contains `://`) is returned
unchanged, any other reference is appended to the base, which in `parse_m3u8`
always ends in `/`.  Dot-segment normalisation and the other RFC 3986 cases
are not modelled. -/
def urljoin (base ref : Str) : Str :=
  if hasSub "://".data ref then ref else base ++ ref

/-- Python `line.startswith('#')`. -/
def startsHash : Str → Bool
  | '#' :: _ => true
  | _ => false

/-- The line-processing comprehension of `parse_m3u8`:
`[line.strip() for line in content.splitlines() if line.strip()]`. -/
def procLines (s : Str) : List Str :=
  ((splitLines s).map pyStrip).filter (fun l => !l.isEmpty)

/-- The segment-URL list `parse_m3u8` builds from a manifest body fetched at
`m3u8Url`: byte-range regex substitution, line split/strip/non-blank filter,
then every line not starting with `#` resolved against
`os.path.dirname(m3u8_url) + '/'`. -/
def tsUrlsOf (m3u8Url content : Str) : List Str :=
  ((procLines (subByteRange content)).filter (fun l => !startsHash l)).map
    (urljoin (dirname m3u8Url ++ ['/']))

/-- The parsing phase of `DownloadManager.parse_m3u8`.  `body?` is the result
of the manifest HTTP fetch: `none` when `requests.get`/`raise_for_status`
raised (the surrounding `try` turns that into a `False` return, modelled as
`none` here), otherwise the response text.  An empty body and an empty
segment-URL list likewise raise and yield `none`; otherwise the segment URL
list (the value stored in `self.ts_urls`, with `self.total` its length). -/
def parse_m3u8 (m3u8Url : Str) (body? : Option Str) : Option (List Str) :=
  match body? with
  | none => none
  | some content =>
    if content.isEmpty then none
    else
      let tsUrls := tsUrlsOf m3u8Url content
      if tsUrls.isEmpty then none else some tsUrls

/-- Outcome of one fetch attempt for a segment URL (one iteration body of the
retry loop in `download_segment`):
* `ok body` — `requests.get` + `raise_for_status` succeeded and the body was
  streamed into the freshly truncated segment file;
* `reqFail msg` — the request itself (or its status check) raised, before the
  segment file was opened, `msg` the `str(e)` text;
* `midFail pbytes msg` — the response arrived, the segment file was opened
  (truncating it) and `pbytes` were written, then the streamed read raised. -/
inductive FetchOutcome where
  | ok (body : Bytes)
  | reqFail (msg : Str)
  | midFail (pbytes : Bytes) (msg : Str)
deriving DecidableEq

/-- Whether an attempt succeeded. -/
def FetchOutcome.isOk : FetchOutcome → Bool
  | .ok _ => true
  | _ => false

/-- The exception text `str(e)` carried by a failing attempt. -/
def FetchOutcome.msgOf : FetchOutcome → Str
  | .ok _ => []
  | .reqFail m => m
  | .midFail _ m => m

/-- Bytes a failing attempt leaves in the segment file, if it opened it. -/
def FetchOutcome.wrote : FetchOutcome → Option Bytes
  | .ok b => some b
  | .reqFail _ => none
  | .midFail pb _ => some pb

/-- Body delivered by a successful attempt. -/
def FetchOutcome.bodyOf : FetchOutcome → Bytes
  | .ok b => b
  | .reqFail _ => []
  | .midFail _ _ => []

/-- The literal `"下载已取消"` returned when a cancellation check fires. -/
def cancelMsg : Str := "下载已取消".data

/-- Python `f"下载失败: {str(e)}"`. -/
def failMsg (m : Str) : Str := "下载失败: ".data ++ m

/-- The literal `"未知错误"` of the fall-through return after the retry loop. -/
def unknownMsg : Str := "未知错误".data

/-- What one call of `download_segment` produced: the returned triple
`(idx, error, success)` plus, for the file-system model, the successive
contents written to its segment file (`writes`, each `open(..., 'wb')` write
truncates the previous one) and how many fetch attempts were issued
(`attemptsUsed`). -/
structure SegRun where
  idx : Nat
  error : Option Str
  success : Bool
  writes : List Bytes
  attemptsUsed : Nat
deriving DecidableEq

/-- The body of `for retry in range(max_retries)` in `download_segment`;
`r` is the current `retry` value, the fuel `k` counts the remaining loop
iterations (callers maintain `k = m - r`).  Each iteration first polls the
cancellation flag (read number `r + 1`; read number `0` happens before the
loop), then performs one fetch attempt; a non-final failed attempt falls
through to the next iteration (`retry < max_retries - 1`), the final one
returns the failure triple.  The fuel-exhausted case is the `return idx,
"未知错误", False` after the loop, reachable only when `max_retries = 0`. -/
def segLoop (fetch : Nat → FetchOutcome) (stop : Nat → Bool) (m : Nat) :
    Nat → Nat → SegRun
  | 0, _ => ⟨0, some unknownMsg, false, [], 0⟩
  | k + 1, r =>
    if stop (r + 1) then ⟨0, some cancelMsg, false, [], 0⟩
    else
      match fetch r with
      | .ok b => ⟨0, none, true, [b], 1⟩
      | .reqFail msg =>
        if r < m - 1 then
          let o := segLoop fetch stop m k (r + 1)
          ⟨0, o.error, o.success, o.writes, o.attemptsUsed + 1⟩
        else ⟨0, some (failMsg msg), false, [], 1⟩
      | .midFail pb msg =>
        if r < m - 1 then
          let o := segLoop fetch stop m k (r + 1)
          ⟨0, o.error, o.success, pb :: o.writes, o.attemptsUsed + 1⟩
        else ⟨0, some (failMsg msg), false, [pb], 1⟩

/-- `DownloadManager.download_segment(idx, url, max_retries)`.  `fetch url r`
is the outcome of attempt number `r` on `url`; `stop` gives the successive
reads of `self.stop_requested` (read `0` is the check before the loop, read
`r + 1` the check at the top of iteration `r`). -/
def download_segment (fetch : Str → Nat → FetchOutcome) (stop : Nat → Bool)
    (idx : Nat) (url : Str) (max_retries : Nat) : SegRun :=
  if stop 0 then ⟨idx, some cancelMsg, false, [], 0⟩
  else { segLoop (fetch url) stop max_retries max_retries 0 with idx := idx }

/-- The `as_completed` loop of `start_download`: `order` is the order in which
the futures complete (a permutation of the segment indices), `res i` the
result of segment `i`'s worker, `stopMain` the successive reads of
`self.stop_requested` in the loop (read `c` happens in the iteration that
raises `completed` from `c` to `c + 1`).  Each iteration increments
`completed`, returns `False` if cancellation is observed, and otherwise
appends `(idx, error)` to `failed_segments` when the segment failed.  After
the loop the run returns `True` iff `failed_segments` is empty. -/
def mainLoop (res : Nat → SegRun) (stopMain : Nat → Bool) :
    List Nat → Nat → List (Nat × Str) → Bool × Nat × List (Nat × Str)
  | [], c, fs => (fs.isEmpty, c, fs)
  | i :: rest, c, fs =>
    if stopMain c then (false, c + 1, fs)
    else
      mainLoop res stopMain rest (c + 1)
        (if (res i).success then fs else fs ++ [(i, (res i).error.getD [])])

/-- Observable state of one `start_download` run: the returned boolean, the
counters `self.total` / `self.completed`, `self.failed_segments`, the final
contents of the scratch directory (index ↦ last bytes written to
`segment_{idx:05d}.ts`), and the total number of fetch attempts issued across
all workers. -/
structure RunResult where
  ok : Bool
  total : Nat
  completed : Nat
  failed : List (Nat × Str)
  scratch : List (Nat × Bytes)
  fetchCalls : Nat
deriving DecidableEq

/-- `DownloadManager.start_download`: reset the per-job state, parse the
manifest (returning `False` with the state untouched on a parse failure),
submit one `download_segment` task per URL, then drain the futures in
completion order.  The scratch directory was cleared in `__init__`, so its
final contents are exactly the last write of each worker that wrote. -/
def start_download (fetch : Str → Nat → FetchOutcome)
    (stopSeg : Nat → Nat → Bool) (stopMain : Nat → Bool)
    (m3u8Url : Str) (body? : Option Str) (order : List Nat)
    (max_retries : Nat) : RunResult :=
  match parse_m3u8 m3u8Url body? with
  | none => ⟨false, 0, 0, [], [], 0⟩
  | some urls =>
    let N := urls.length
    let res := fun i => download_segment fetch (stopSeg i) i (urls.getD i []) max_retries
    let out := mainLoop res stopMain order 0 []
    { ok := out.1
      total := N
      completed := out.2.1
      failed := out.2.2
      scratch := (List.range N).filterMap (fun i => ((res i).writes.getLast?).map (fun b => (i, b)))
      fetchCalls := ((List.range N).map (fun i => (res i).attemptsUsed)).sum }

/-- Fuelled decimal digits (most significant first) of `n`; fuel `n + 1`
always suffices since the argument is divided by 10 at each step. -/
def toDecAux : Nat → Nat → Str
  | 0, _ => []
  | fuel + 1, n =>
    if n < 10 then [Nat.digitChar n]
    else toDecAux fuel (n / 10) ++ [Nat.digitChar (n % 10)]

/-- Decimal representation of `n`, as produced by Python's `"%d"`. -/
def toDec (n : Nat) : Str := toDecAux (n + 1) n

/-- Python `f"{idx:05d}"`: the decimal representation left-padded with `'0'`
to width 5 (longer representations are kept whole). -/
def pad5 (n : Nat) : Str := List.replicate (5 - (toDec n).length) '0' ++ toDec n

/-- The scratch file name `f"segment_{idx:05d}.ts"` of segment `idx`. -/
def segFileName (idx : Nat) : Str := "segment_".data ++ pad5 idx ++ ".ts".data

/-- Lexicographic (code-point) string comparison, the order Python's
`sorted` applies to file names. -/
def strLe : Str → Str → Bool
  | [], _ => true
  | _ :: _, [] => false
  | a :: as, b :: bs => if a = b then strLe as bs else decide (a < b)

/-- Insert into a sorted list (kernel of insertion sort). -/
def insertLe (le : α → α → Bool) (a : α) : List α → List α
  | [] => [a]
  | b :: bs => if le a b then a :: b :: bs else b :: insertLe le a bs

/-- Insertion sort by a boolean comparator; models Python's `sorted`. -/
def sortLe (le : α → α → Bool) : List α → List α
  | [] => []
  | a :: as => insertLe le a (sortLe le as)

/-- Comparator `sorted` effectively uses in `merge_files`: segment files
ordered by their full path, i.e. by `segFileName`. -/
def fnameLe (p q : Nat × Bytes) : Bool := strLe (segFileName p.1) (segFileName q.1)

/-- Ascending-index comparator (the order the spec demands). -/
def idxLe (p q : Nat × Bytes) : Bool := decide (p.1 ≤ q.1)

/-- The byte sequence the fallback branch of `merge_files` writes to
`output.mp4`: the scratch files sorted by file name, concatenated. -/
def mergedBytes (scratch : List (Nat × Bytes)) : Bytes :=
  ((sortLe fnameLe scratch).map Prod.snd).flatten

/-- Concatenation of the scratch files in ascending segment-index order (the
reference order named by the spec). -/
def ascBytes (scratch : List (Nat × Bytes)) : Bytes :=
  ((sortLe idxLe scratch).map Prod.snd).flatten

/-- `DownloadManager.merge_files`, fallback branch (`shutil.which("ffmpeg")`
absent; the ffmpeg branch delegates the byte layout to an external tool and is
not modelled, but clears the scratch directory on success exactly like the
fallback).  `scratch` is the current scratch directory (index ↦ file bytes).
With no segment files the raised `"未找到分片文件"` is caught and the scratch
directory is left intact (`(none, scratch)`); otherwise the concatenation is
written to `output.mp4` and `shutil.rmtree` empties the scratch directory. -/
def merge_files (scratch : List (Nat × Bytes)) : Option Bytes × List (Nat × Bytes) :=
  if scratch.isEmpty then (none, scratch)
  else (some (mergedBytes scratch), [])

/-- The `failed_segments` entry the main loop appends for segment `i`
(`none` when the segment succeeded). -/
def failEntry (res : Nat → SegRun) (i : Nat) : Option (Nat × Str) :=
  if (res i).success then none else some (i, (res i).error.getD [])

/-- Decimal digits of `n` (values, most significant first, `n < 100000`),
spelt with the div/mod tower used in the `pad5` correctness proofs. -/
def dig5 (n : Nat) : List Nat :=
  [n / 10000, n / 1000 % 10, n / 100 % 10, n / 10 % 10, n % 10]

/-- Value of a most-significant-first digit list. -/
def valMSF (ds : List Nat) : Nat := ds.foldl (fun a d => 10 * a + d) 0

/-- Segment references as the spec sentence reads: split the body into lines,
discard the byte-range directive lines (lines starting with the
`#EXT-X-BYTERANGE` marker), strip, drop blanks, keep the lines not starting
with `#`, and resolve each against the directory portion of the manifest
URL. -/
def specSegURLs (m3u8Url content : Str) : List Str :=
  ((((splitLines content).filter (fun l => !(l.take brChars.length = brChars : Bool))).map
      pyStrip).filter (fun l => !l.isEmpty)).filter (fun l => !startsHash l)
    |>.map (urljoin (dirname m3u8Url ++ ['/']))

/-- Join lines with `'\n'` (inverse of `splitLines` on `'\r'`-free input). -/
def joinNl : List Str → Str
  | [] => []
  | [l] => l
  | l :: ls => l ++ '\n' :: joinNl ls

/-! Lemmas about the string primitives. -/

lemma dropRestOfLine_length_le (s : Str) : (dropRestOfLine s).length ≤ s.length := by
  induction s with
  | nil => simp [dropRestOfLine]
  | cons c cs ih =>
    simp only [dropRestOfLine]
    split
    · simp
    · exact Nat.le_succ_of_le ih

/-! Lemmas about the retry loop. -/

lemma segLoop_success_error_none (fetch : Nat → FetchOutcome) (stop : Nat → Bool)
    (m : Nat) : ∀ k r, (segLoop fetch stop m k r).success = true →
    (segLoop fetch stop m k r).error = none := by
  intro k
  induction k with
  | zero => intro r h; simp [segLoop] at h
  | succ k ih =>
    intro r h
    by_cases hs : stop (r + 1) = true
    · simp [segLoop, hs] at h
    · cases hfr : fetch r with
      | ok b => simp [segLoop, hs, hfr]
      | reqFail msg =>
        by_cases hl : r < m - 1
        · simp only [segLoop, hs, hfr, if_pos hl, Bool.false_eq_true, if_false] at h ⊢
          exact ih _ h
        · simp [segLoop, hs, hfr, hl] at h
      | midFail pb msg =>
        by_cases hl : r < m - 1
        · simp only [segLoop, hs, hfr, if_pos hl, Bool.false_eq_true, if_false] at h ⊢
          exact ih _ h
        · simp [segLoop, hs, hfr, hl] at h

lemma segLoop_allFail (fetch : Nat → FetchOutcome) (stop : Nat → Bool) (m : Nat)
    (hstop : ∀ n, stop n = false) (hfail : ∀ r < m, (fetch r).isOk = false) :
    ∀ k r, k + r = m → 0 < k →
      segLoop fetch stop m k r =
        ⟨0, some (failMsg (fetch (m - 1)).msgOf), false,
          (List.range' r k).filterMap (fun i => (fetch i).wrote), k⟩ := by
  intro k
  induction k with
  | zero => intro r _ h; exact absurd h (Nat.lt_irrefl 0)
  | succ k ih =>
    intro r hkr _
    have hr : r < m := by omega
    simp only [segLoop, hstop, Bool.false_eq_true, if_false]
    cases hfr : fetch r with
    | ok b => have := hfail r hr; simp [hfr, FetchOutcome.isOk] at this
    | reqFail msg =>
      by_cases hlast : r < m - 1
      · have hk : 0 < k := by omega
        simp [hlast, ih (r + 1) (by omega) hk, List.range'_succ, hfr, FetchOutcome.wrote]
      · have hk : k = 0 := by omega
        have hrm : r = m - 1 := by omega
        subst hk
        subst hrm
        simp [hlast, List.range'_succ, hfr, FetchOutcome.wrote, FetchOutcome.msgOf]
    | midFail pb msg =>
      by_cases hlast : r < m - 1
      · have hk : 0 < k := by omega
        simp [hlast, ih (r + 1) (by omega) hk, List.range'_succ, hfr, FetchOutcome.wrote]
      · have hk : k = 0 := by omega
        have hrm : r = m - 1 := by omega
        subst hk
        subst hrm
        simp [hlast, List.range'_succ, hfr, FetchOutcome.wrote, FetchOutcome.msgOf]

lemma segLoop_firstOk (fetch : Nat → FetchOutcome) (stop : Nat → Bool) (m : Nat)
    (hstop : ∀ n, stop n = false) (j : Nat) (hjm : j < m)
    (hok : (fetch j).isOk = true)
    (hmin : ∀ i < j, (fetch i).isOk = false) :
    ∀ k r, k + r = m → r ≤ j →
      segLoop fetch stop m k r =
        ⟨0, none, true,
          ((List.range' r (j - r)).filterMap (fun i => (fetch i).wrote)) ++
            [(fetch j).bodyOf], j - r + 1⟩ := by
  intro k
  induction k with
  | zero => intro r hkr hrj; omega
  | succ k ih =>
    intro r hkr hrj
    simp only [segLoop, hstop, Bool.false_eq_true, if_false]
    by_cases hrange : r = j
    · subst hrange
      cases hfr : fetch r with
      | ok b => simp [hfr, FetchOutcome.bodyOf]
      | reqFail msg => simp [hfr, FetchOutcome.isOk] at hok
      | midFail pb msg => simp [hfr, FetchOutcome.isOk] at hok
    · have hrj' : r < j := by omega
      have hlast : r < m - 1 := by omega
      have hfr' := hmin r hrj'
      cases hfr : fetch r with
      | ok b => simp [hfr, FetchOutcome.isOk] at hfr'
      | reqFail msg =>
        have hjr : j - r = (j - (r + 1)) + 1 := by omega
        simp [hlast, ih (r + 1) (by omega) (by omega), hjr, List.range'_succ, hfr,
          FetchOutcome.wrote]
      | midFail pb msg =>
        have hjr : j - r = (j - (r + 1)) + 1 := by omega
        simp [hlast, ih (r + 1) (by omega) (by omega), hjr, List.range'_succ, hfr,
          FetchOutcome.wrote]

lemma segLoop_stop_attempts (fetch : Nat → FetchOutcome) (stop : Nat → Bool)
    (m : Nat) (j : Nat)
    (mono : ∀ a b, a ≤ b → stop a = true → stop b = true)
    (hj : stop j = true) :
    ∀ k r, (segLoop fetch stop m k r).attemptsUsed ≤ j - r := by
  intro k
  induction k with
  | zero => intro r; simp [segLoop]
  | succ k ih =>
    intro r
    by_cases hs : stop (r + 1) = true
    · simp [segLoop, hs]
    · have hrj : r + 1 < j := by
        by_contra hle
        exact hs (mono j (r + 1) (by omega) hj)
      cases hfr : fetch r with
      | ok b => simp [segLoop, hs, hfr]; omega
      | reqFail msg =>
        by_cases hl : r < m - 1
        · have := ih (r + 1)
          simp [segLoop, hs, hfr, hl]
          omega
        · simp [segLoop, hs, hfr, hl]
          omega
      | midFail pb msg =>
        by_cases hl : r < m - 1
        · have := ih (r + 1)
          simp [segLoop, hs, hfr, hl]
          omega
        · simp [segLoop, hs, hfr, hl]
          omega

/-! Lemmas about `download_segment`. -/

lemma download_segment_allFail (fetch : Str → Nat → FetchOutcome) (stop : Nat → Bool)
    (idx : Nat) (url : Str) (m : Nat) (hm : 0 < m)
    (hstop : ∀ n, stop n = false)
    (hfail : ∀ r < m, (fetch url r).isOk = false) :
    download_segment fetch stop idx url m =
      ⟨idx, some (failMsg (fetch url (m - 1)).msgOf), false,
        (List.range' 0 m).filterMap (fun i => (fetch url i).wrote), m⟩ := by
  unfold download_segment
  rw [hstop 0]
  simp only [Bool.false_eq_true, if_false]
  rw [segLoop_allFail (fetch url) stop m hstop hfail m 0 (by omega) hm]

lemma download_segment_firstOk (fetch : Str → Nat → FetchOutcome) (stop : Nat → Bool)
    (idx : Nat) (url : Str) (m : Nat)
    (hstop : ∀ n, stop n = false) (j : Nat) (hjm : j < m)
    (hok : (fetch url j).isOk = true)
    (hmin : ∀ i < j, (fetch url i).isOk = false) :
    download_segment fetch stop idx url m =
      ⟨idx, none, true,
        ((List.range' 0 j).filterMap (fun i => (fetch url i).wrote)) ++
          [(fetch url j).bodyOf], j + 1⟩ := by
  unfold download_segment
  rw [hstop 0]
  simp only [Bool.false_eq_true, if_false]
  rw [segLoop_firstOk (fetch url) stop m hstop j hjm hok hmin m 0 (by omega) (by omega)]
  simp

lemma download_segment_success_of_exists (fetch : Str → Nat → FetchOutcome)
    (stop : Nat → Bool) (idx : Nat) (url : Str) (m : Nat)
    (hstop : ∀ n, stop n = false)
    (hok : ∃ j < m, (fetch url j).isOk = true) :
    (download_segment fetch stop idx url m).success = true ∧
      (download_segment fetch stop idx url m).error = none ∧
      (download_segment fetch stop idx url m).writes ≠ [] := by
  classical
  obtain ⟨j, hjm, hokj⟩ := hok
  have hex : ∃ j, (fetch url j).isOk = true := ⟨j, hokj⟩
  let j₀ := Nat.find hex
  have hj₀ : (fetch url j₀).isOk = true := Nat.find_spec hex
  have hj₀m : j₀ < m := Nat.lt_of_le_of_lt (Nat.find_le hokj) hjm
  have hmin : ∀ i < j₀, (fetch url i).isOk = false := by
    intro i hi
    have := Nat.find_min hex hi
    simpa using this
  rw [download_segment_firstOk fetch stop idx url m hstop j₀ hj₀m hj₀ hmin]
  simp

lemma download_segment_stop0 (fetch : Str → Nat → FetchOutcome) (stop : Nat → Bool)
    (idx : Nat) (url : Str) (m : Nat) (h0 : stop 0 = true) :
    download_segment fetch stop idx url m = ⟨idx, some cancelMsg, false, [], 0⟩ := by
  simp [download_segment, h0]

lemma download_segment_stop_attempts (fetch : Str → Nat → FetchOutcome)
    (stop : Nat → Bool) (idx : Nat) (url : Str) (m j : Nat)
    (mono : ∀ a b, a ≤ b → stop a = true → stop b = true)
    (hj : stop j = true) :
    (download_segment fetch stop idx url m).attemptsUsed ≤ j := by
  unfold download_segment
  by_cases h0 : stop 0 = true
  · simp [h0]
  · simp only [h0, Bool.false_eq_true, if_false]
    have := segLoop_stop_attempts (fetch url) stop m j mono hj m 0
    simpa using this

lemma download_segment_idx (fetch : Str → Nat → FetchOutcome) (stop : Nat → Bool)
    (idx : Nat) (url : Str) (m : Nat) :
    (download_segment fetch stop idx url m).idx = idx := by
  unfold download_segment
  by_cases h0 : stop 0 = true <;> simp [h0]

lemma download_segment_success_none (fetch : Str → Nat → FetchOutcome)
    (stop : Nat → Bool) (idx : Nat) (url : Str) (m : Nat)
    (h : (download_segment fetch stop idx url m).success = true) :
    (download_segment fetch stop idx url m).error = none := by
  unfold download_segment at h ⊢
  by_cases h0 : stop 0 = true
  · simp [h0] at h
  · simp only [h0, Bool.false_eq_true, if_false] at h ⊢
    simpa using segLoop_success_error_none (fetch url) stop m m 0 (by simpa using h)

/-! Lemmas about the `as_completed` loop. -/

lemma mainLoop_noStop (res : Nat → SegRun) :
    ∀ (order : List Nat) (c : Nat) (fs : List (Nat × Str)),
      mainLoop res (fun _ => false) order c fs =
        ((fs ++ order.filterMap (failEntry res)).isEmpty, c + order.length,
          fs ++ order.filterMap (failEntry res)) := by
  intro order
  induction order with
  | nil => intro c fs; simp [mainLoop]
  | cons i rest ih =>
    intro c fs
    simp only [mainLoop, Bool.false_eq_true, if_false]
    by_cases hs : (res i).success = true
    · rw [if_pos hs, ih]
      simp [failEntry, hs, Nat.add_assoc, Nat.add_comm 1 rest.length]
    · rw [if_neg hs, ih]
      simp only [failEntry, hs, Bool.false_eq_true, if_false, List.filterMap_cons]
      simp [Nat.add_assoc, Nat.add_comm 1 rest.length]

lemma mainLoop_stopped (res : Nat → SegRun) (stopMain : Nat → Bool) :
    ∀ (order : List Nat) (c : Nat) (fs : List (Nat × Str)),
      (∃ j < order.length, stopMain (c + j) = true) →
      (mainLoop res stopMain order c fs).1 = false := by
  intro order
  induction order with
  | nil => intro c fs h; obtain ⟨j, hj, _⟩ := h; simp at hj
  | cons i rest ih =>
    intro c fs h
    by_cases hs : stopMain c = true
    · simp [mainLoop, hs]
    · obtain ⟨j, hj, hsj⟩ := h
      have hj0 : j ≠ 0 := by
        intro h0
        subst h0
        simp at hsj
        exact hs hsj
      simp only [mainLoop, hs, Bool.false_eq_true, if_false]
      refine ih (c + 1) _ ⟨j - 1, by simp at hj; omega, ?_⟩
      have hidx : c + 1 + (j - 1) = c + j := by omega
      rw [hidx]
      exact hsj

lemma filterMap_pair_map_fst (g : Nat → Option Bytes) (l : List Nat)
    (h : ∀ i ∈ l, (g i).isSome) :
    (l.filterMap (fun i => (g i).map (fun b => (i, b)))).map Prod.fst = l := by
  induction l with
  | nil => simp
  | cons i rest ih =>
    have hi := h i (by simp)
    cases hg : g i with
    | none => rw [hg] at hi; simp at hi
    | some b =>
      simp only [List.filterMap_cons, hg, Option.map_some]
      simpa using ih (fun x hx => h x (by simp [hx]))

lemma filterMap_failEntry_map_fst (res : Nat → SegRun) (order : List Nat) :
    (order.filterMap (failEntry res)).map Prod.fst =
      order.filter (fun i => !(res i).success) := by
  induction order with
  | nil => simp
  | cons i rest ih =>
    by_cases hs : (res i).success = true
    · simp [failEntry, hs, List.filterMap_cons, ih]
    · simp only [Bool.not_eq_true] at hs
      simp [failEntry, hs, List.filterMap_cons, ih]

/-! Claim theorems for the scheduler. -/

/-- C1: for a manifest parsing to `N` segment URLs, when every segment fetch
succeeds on some attempt within the retry budget and cancellation is never
requested, `start_download` ends with `completed = N`, an empty
failed-segment list, a `True` return, and scratch files for exactly the
indices `0..N-1`. -/
theorem start_download_full_success
    (fetch : Str → Nat → FetchOutcome) (u : Str) (body? : Option Str)
    (urls : List Str) (order : List Nat) (N : Nat)
    (hp : parse_m3u8 u body? = some urls) (hN : urls.length = N)
    (hord : order.Perm (List.range N))
    (hok : ∀ i < N, ∃ j < 3, (fetch (urls.getD i []) j).isOk = true) :
    (start_download fetch (fun _ _ => false) (fun _ => false) u body? order 3).ok = true ∧
    (start_download fetch (fun _ _ => false) (fun _ => false) u body? order 3).completed = N ∧
    (start_download fetch (fun _ _ => false) (fun _ => false) u body? order 3).failed = [] ∧
    (start_download fetch (fun _ _ => false) (fun _ => false) u body? order 3).scratch.map
      Prod.fst = List.range N := by
  have hres : ∀ i < N,
      (download_segment fetch (fun _ => false) i (urls.getD i []) 3).success = true ∧
      (download_segment fetch (fun _ => false) i (urls.getD i []) 3).error = none ∧
      (download_segment fetch (fun _ => false) i (urls.getD i []) 3).writes ≠ [] := by
    intro i hi
    exact download_segment_success_of_exists fetch (fun _ => false) i (urls.getD i []) 3
      (fun _ => rfl) (hok i hi)
  have hfm : order.filterMap
      (failEntry (fun i => download_segment fetch (fun _ => false) i (urls.getD i []) 3)) = [] := by
    rw [List.filterMap_eq_nil_iff]
    intro i hi
    have hiN : i < N := by
      have := hord.mem_iff.mp hi
      simpa using this
    simp only [failEntry, (hres i hiN).1, if_true]
  have hlen : order.length = N := by
    have := hord.length_eq
    simpa using this
  simp only [start_download, hp]
  rw [mainLoop_noStop, hfm]
  refine ⟨by simp, by simp [hlen], by simp, ?_⟩
  simp only [hN]
  rw [filterMap_pair_map_fst]
  intro i hi
  have hiN : i < N := by simpa using hi
  have := (hres i hiN).2.2
  simpa [List.getLast?_isSome] using this

/-- C2: a segment whose fetch fails on every attempt, with cancellation never
requested, is attempted exactly `max_retries` times (never more, never fewer)
and then returns the failure triple built from the last attempt's error. -/
theorem download_segment_retry_cap
    (fetch : Str → Nat → FetchOutcome) (idx : Nat) (url : Str) (m : Nat)
    (hm : 0 < m) (hfail : ∀ r < m, (fetch url r).isOk = false) :
    (download_segment fetch (fun _ => false) idx url m).attemptsUsed = m ∧
    (download_segment fetch (fun _ => false) idx url m).success = false ∧
    (download_segment fetch (fun _ => false) idx url m).error =
      some (failMsg (fetch url (m - 1)).msgOf) := by
  rw [download_segment_allFail fetch (fun _ => false) idx url m hm (fun _ => rfl) hfail]
  exact ⟨rfl, rfl, rfl⟩

/-- C4: once the cancellation flag is set (monotone oracle, true at read
`j`), a worker performs no fetch attempt beyond the checks that read `false`
(at most `j` attempts; none at all when the pre-loop check reads `true`, the
call returning the cancelled triple), and if the main loop observes the flag
while `completed < total` the run returns `False` instead of success. -/
theorem cancellation_stops_new_attempts
    (fetch : Str → Nat → FetchOutcome) (stop : Nat → Bool) (idx : Nat) (url : Str)
    (m j : Nat)
    (mono : ∀ a b, a ≤ b → stop a = true → stop b = true)
    (hj : stop j = true) :
    (download_segment fetch stop idx url m).attemptsUsed ≤ j ∧
    (stop 0 = true →
      download_segment fetch stop idx url m = ⟨idx, some cancelMsg, false, [], 0⟩) ∧
    (∀ (stopSeg : Nat → Nat → Bool) (stopMain : Nat → Bool) (u : Str)
       (body? : Option Str) (urls : List Str) (order : List Nat) (k : Nat),
       parse_m3u8 u body? = some urls → order.Perm (List.range urls.length) →
       k < urls.length → stopMain k = true →
       (start_download fetch stopSeg stopMain u body? order m).ok = false) := by
  refine ⟨download_segment_stop_attempts fetch stop idx url m j mono hj,
    fun h0 => download_segment_stop0 fetch stop idx url m h0,
    fun stopSeg stopMain u body? urls order k hp hord hk hsk => ?_⟩
  simp only [start_download, hp]
  apply mainLoop_stopped
  refine ⟨k, ?_, by simpa using hsk⟩
  have hlen : order.length = urls.length := by
    have := hord.length_eq
    simpa using this
  omega

/-- C5: with cancellation never requested and some segment failing all its
attempts, the run returns `False` (partial failure, not success), the
completed counter still reaches the total `N`, and the failed-segment list
carries exactly one entry per failed segment (its index list is a permutation
of the failed indices of `0..N-1`, and contains the failing index). -/
theorem start_download_partial_failure
    (fetch : Str → Nat → FetchOutcome) (u : Str) (body? : Option Str)
    (urls : List Str) (order : List Nat) (N k : Nat)
    (hp : parse_m3u8 u body? = some urls) (hN : urls.length = N)
    (hord : order.Perm (List.range N))
    (hk : k < N) (hkfail : ∀ r < 3, (fetch (urls.getD k []) r).isOk = false) :
    (start_download fetch (fun _ _ => false) (fun _ => false) u body? order 3).ok = false ∧
    (start_download fetch (fun _ _ => false) (fun _ => false) u body? order 3).completed = N ∧
    ((start_download fetch (fun _ _ => false) (fun _ => false) u body? order 3).failed.map
        Prod.fst).Perm
      ((List.range N).filter
        (fun i => !(download_segment fetch (fun _ => false) i (urls.getD i []) 3).success)) ∧
    k ∈ (start_download fetch (fun _ _ => false) (fun _ => false) u body? order 3).failed.map
      Prod.fst := by
  have hlen : order.length = N := by
    have := hord.length_eq
    simpa using this
  have hkf : (download_segment fetch (fun _ => false) k (urls.getD k []) 3).success = false := by
    rw [download_segment_allFail fetch (fun _ => false) k (urls.getD k []) 3 (by omega)
      (fun _ => rfl) hkfail]
  simp only [start_download, hp]
  rw [mainLoop_noStop]
  simp only [List.nil_append, hN]
  rw [filterMap_failEntry_map_fst]
  have hperm : (order.filter
        (fun i => !(download_segment fetch (fun _ => false) i (urls.getD i []) 3).success)).Perm
      ((List.range N).filter
        (fun i => !(download_segment fetch (fun _ => false) i (urls.getD i []) 3).success)) :=
    hord.filter _
  have hkmem : k ∈ order.filter
      (fun i => !(download_segment fetch (fun _ => false) i (urls.getD i []) 3).success) := by
    rw [List.mem_filter]
    refine ⟨hord.mem_iff.mpr (by simpa using hk), by simp only [hkf, Bool.not_false]⟩
  refine ⟨?_, by simp [hlen], hperm, hkmem⟩
  have hne : order.filterMap
      (failEntry (fun i => download_segment fetch (fun _ => false) i (urls.getD i []) 3)) ≠ [] := by
    intro hnil
    have := filterMap_failEntry_map_fst
      (fun i => download_segment fetch (fun _ => false) i (urls.getD i []) 3) order
    rw [hnil] at this
    rw [← this] at hkmem
    simp at hkmem
  simpa [List.isEmpty_iff] using hne

/-- C7: parsing fails on a fetch failure, an empty manifest body, or an empty
resolved segment list, and on any parse failure `start_download` returns
`False` with the job state untouched: `completed = 0`, no failed segments, no
scratch files, and no fetch attempt issued. -/
theorem parse_failure_no_scheduling
    (fetch : Str → Nat → FetchOutcome) (stopSeg : Nat → Nat → Bool)
    (stopMain : Nat → Bool) (u : Str) (body? : Option Str) (order : List Nat)
    (m : Nat) (hp : parse_m3u8 u body? = none) :
    start_download fetch stopSeg stopMain u body? order m =
      ⟨false, 0, 0, [], [], 0⟩ ∧
    (∀ v : Str, parse_m3u8 v none = none) ∧
    (∀ v : Str, parse_m3u8 v (some []) = none) ∧
    (∀ (v content : Str), tsUrlsOf v content = [] →
      parse_m3u8 v (some content) = none) := by
  refine ⟨by simp [start_download, hp], fun v => rfl, fun v => rfl, fun v content ht => ?_⟩
  simp only [parse_m3u8, ht]
  split <;> simp

/-- C10: `download_segment` is total at its interface: for every oracle,
index, URL and retry budget it returns a triple whose index component is the
input index (exceptions from fetch attempts are absorbed as data by the
`try/except`, never propagated), and a successful result carries no error. -/
theorem download_segment_total_interface
    (fetch : Str → Nat → FetchOutcome) (stop : Nat → Bool) (idx : Nat)
    (url : Str) (m : Nat) :
    (download_segment fetch stop idx url m).idx = idx ∧
    ((download_segment fetch stop idx url m).success = true →
      (download_segment fetch stop idx url m).error = none) :=
  ⟨download_segment_idx fetch stop idx url m,
    download_segment_success_none fetch stop idx url m⟩

/-- Witness for C1: a two-segment manifest, every fetch succeeding at once,
futures completing in reverse order. -/
theorem start_download_full_success_witness :
    (start_download (fun _ _ => FetchOutcome.ok [7]) (fun _ _ => false) (fun _ => false)
      "http://host/path/index.m3u8".data (some "#EXTM3U\nseg1.ts\nseg2.ts".data)
      [1, 0] 3).ok = true ∧
    (start_download (fun _ _ => FetchOutcome.ok [7]) (fun _ _ => false) (fun _ => false)
      "http://host/path/index.m3u8".data (some "#EXTM3U\nseg1.ts\nseg2.ts".data)
      [1, 0] 3).completed = 2 ∧
    (start_download (fun _ _ => FetchOutcome.ok [7]) (fun _ _ => false) (fun _ => false)
      "http://host/path/index.m3u8".data (some "#EXTM3U\nseg1.ts\nseg2.ts".data)
      [1, 0] 3).failed = [] ∧
    (start_download (fun _ _ => FetchOutcome.ok [7]) (fun _ _ => false) (fun _ => false)
      "http://host/path/index.m3u8".data (some "#EXTM3U\nseg1.ts\nseg2.ts".data)
      [1, 0] 3).scratch.map Prod.fst = List.range 2 :=
  start_download_full_success (fun _ _ => FetchOutcome.ok [7])
    "http://host/path/index.m3u8".data (some "#EXTM3U\nseg1.ts\nseg2.ts".data)
    ["http://host/path/seg1.ts".data, "http://host/path/seg2.ts".data] [1, 0] 2
    (by decide) (by decide) (by decide) (by decide)

/-- Witness for C2: a segment whose three attempts all fail is attempted
exactly three times. -/
theorem download_segment_retry_cap_witness :
    (download_segment (fun _ _ => FetchOutcome.reqFail "boom".data) (fun _ => false)
      4 "u".data 3).attemptsUsed = 3 ∧
    (download_segment (fun _ _ => FetchOutcome.reqFail "boom".data) (fun _ => false)
      4 "u".data 3).success = false ∧
    (download_segment (fun _ _ => FetchOutcome.reqFail "boom".data) (fun _ => false)
      4 "u".data 3).error = some (failMsg "boom".data) :=
  download_segment_retry_cap (fun _ _ => FetchOutcome.reqFail "boom".data) 4 "u".data 3
    (by decide) (by decide)

/-- Witness for C4: a flag that turns true from read 1 onward caps the worker
at one attempt, and a run over three segments that observes the flag at main
loop iteration 1 returns `False`. -/
theorem cancellation_stops_new_attempts_witness :
    (download_segment (fun _ _ => FetchOutcome.ok [7]) (fun n => decide (1 ≤ n))
      0 "u".data 3).attemptsUsed ≤ 1 ∧
    (start_download (fun _ _ => FetchOutcome.ok [7]) (fun _ _ => false)
      (fun n => decide (1 ≤ n)) "http://host/path/index.m3u8".data
      (some "s1.ts\ns2.ts\ns3.ts".data) [0, 1, 2] 3).ok = false := by
  have T := cancellation_stops_new_attempts (fun _ _ => FetchOutcome.ok [7])
    (fun n => decide (1 ≤ n)) 0 "u".data 3 1
    (fun a b hab ha => by simp only [decide_eq_true_eq] at ha ⊢; omega) (by decide)
  refine ⟨T.1, T.2.2 (fun _ _ => false) (fun n => decide (1 ≤ n))
    "http://host/path/index.m3u8".data (some "s1.ts\ns2.ts\ns3.ts".data)
    ["http://host/path/s1.ts".data, "http://host/path/s2.ts".data,
      "http://host/path/s3.ts".data] [0, 1, 2] 1
    (by decide) (by decide) (by decide) (by decide)⟩

/-- Witness for C5: five segments, index 2 failing all three attempts; the
run reports `failed = [(2, "下载失败: x")]` and `completed = 5`. -/
theorem start_download_partial_failure_witness :
    (start_download
      (fun u _ => if u = "http://h/p/s2.ts".data then FetchOutcome.reqFail "x".data
        else FetchOutcome.ok [1])
      (fun _ _ => false) (fun _ => false) "http://h/p/i.m3u8".data
      (some "s0.ts\ns1.ts\ns2.ts\ns3.ts\ns4.ts".data) [0, 1, 2, 3, 4] 3).ok = false ∧
    (start_download
      (fun u _ => if u = "http://h/p/s2.ts".data then FetchOutcome.reqFail "x".data
        else FetchOutcome.ok [1])
      (fun _ _ => false) (fun _ => false) "http://h/p/i.m3u8".data
      (some "s0.ts\ns1.ts\ns2.ts\ns3.ts\ns4.ts".data) [0, 1, 2, 3, 4] 3).completed = 5 ∧
    (start_download
      (fun u _ => if u = "http://h/p/s2.ts".data then FetchOutcome.reqFail "x".data
        else FetchOutcome.ok [1])
      (fun _ _ => false) (fun _ => false) "http://h/p/i.m3u8".data
      (some "s0.ts\ns1.ts\ns2.ts\ns3.ts\ns4.ts".data) [0, 1, 2, 3, 4] 3).failed =
      [(2, failMsg "x".data)] := by
  have T := start_download_partial_failure
    (fun u _ => if u = "http://h/p/s2.ts".data then FetchOutcome.reqFail "x".data
      else FetchOutcome.ok [1])
    "http://h/p/i.m3u8".data (some "s0.ts\ns1.ts\ns2.ts\ns3.ts\ns4.ts".data)
    ["http://h/p/s0.ts".data, "http://h/p/s1.ts".data, "http://h/p/s2.ts".data,
      "http://h/p/s3.ts".data, "http://h/p/s4.ts".data]
    [0, 1, 2, 3, 4] 5 2 (by decide) (by decide) (by decide) (by decide) (by decide)
  exact ⟨T.1, T.2.1, by decide⟩

/-- Witness for C7: a manifest body consisting only of comment lines parses
to `none`, and the run returns `False` with all state at its initial
values. -/
theorem parse_failure_no_scheduling_witness :
    start_download (fun _ _ => FetchOutcome.ok []) (fun _ _ => false) (fun _ => false)
      "http://h/p/i.m3u8".data (some "#only\n#comments\n".data) [0] 3 =
      ⟨false, 0, 0, [], [], 0⟩ :=
  (parse_failure_no_scheduling (fun _ _ => FetchOutcome.ok []) (fun _ _ => false)
    (fun _ => false) "http://h/p/i.m3u8".data (some "#only\n#comments\n".data) [0] 3
    (by decide)).1

/-- Witness for C10 at a concrete call. -/
theorem download_segment_total_interface_witness :
    (download_segment (fun _ _ => FetchOutcome.ok [1]) (fun _ => false) 7 "u".data 3).idx = 7 :=
  (download_segment_total_interface (fun _ _ => FetchOutcome.ok [1]) (fun _ => false)
    7 "u".data 3).1

/-! Lemmas about decimal formatting and the lexicographic file-name order. -/

lemma toDecAux_irrel : ∀ (n f₁ f₂ : Nat), n < f₁ → n < f₂ →
    toDecAux f₁ n = toDecAux f₂ n := by
  intro n
  induction n using Nat.strong_induction_on with
  | _ n ih =>
    intro f₁ f₂ h₁ h₂
    match f₁, h₁ with
    | f₁ + 1, h₁ =>
      match f₂, h₂ with
      | f₂ + 1, h₂ =>
        simp only [toDecAux]
        by_cases hn : n < 10
        · simp [hn]
        · rw [if_neg hn, if_neg hn,
            ih (n / 10) (by omega) f₁ f₂ (by omega) (by omega)]

lemma toDec_eq (n : Nat) :
    toDec n = if n < 10 then [Nat.digitChar n]
      else toDec (n / 10) ++ [Nat.digitChar (n % 10)] := by
  unfold toDec
  rw [show toDecAux (n + 1) n = if n < 10 then [Nat.digitChar n]
    else toDecAux n (n / 10) ++ [Nat.digitChar (n % 10)] from rfl]
  by_cases hn : n < 10
  · simp [hn]
  · rw [if_neg hn, if_neg hn,
      toDecAux_irrel (n / 10) n (n / 10 + 1) (by omega) (by omega)]

lemma toDec_d1 (n : Nat) (h : n < 10) : toDec n = [Nat.digitChar n] := by
  rw [toDec_eq, if_pos h]

lemma toDec_d2 (n : Nat) (h1 : 10 ≤ n) (h2 : n < 100) :
    toDec n = [Nat.digitChar (n / 10), Nat.digitChar (n % 10)] := by
  rw [toDec_eq, if_neg (by omega), toDec_d1 (n / 10) (by omega)]
  rfl

lemma toDec_d3 (n : Nat) (h1 : 100 ≤ n) (h2 : n < 1000) :
    toDec n = [Nat.digitChar (n / 100), Nat.digitChar (n / 10 % 10),
      Nat.digitChar (n % 10)] := by
  rw [toDec_eq, if_neg (by omega), toDec_d2 (n / 10) (by omega) (by omega)]
  have e1 : n / 10 / 10 = n / 100 := by omega
  have e2 : n / 10 % 10 = n / 10 % 10 := rfl
  rw [e1]
  rfl

lemma toDec_d4 (n : Nat) (h1 : 1000 ≤ n) (h2 : n < 10000) :
    toDec n = [Nat.digitChar (n / 1000), Nat.digitChar (n / 100 % 10),
      Nat.digitChar (n / 10 % 10), Nat.digitChar (n % 10)] := by
  rw [toDec_eq, if_neg (by omega), toDec_d3 (n / 10) (by omega) (by omega)]
  have e1 : n / 10 / 100 = n / 1000 := by omega
  have e2 : n / 10 / 10 % 10 = n / 100 % 10 := by omega
  rw [e1, e2]
  rfl

lemma toDec_d5 (n : Nat) (h1 : 10000 ≤ n) (h2 : n < 100000) :
    toDec n = [Nat.digitChar (n / 10000), Nat.digitChar (n / 1000 % 10),
      Nat.digitChar (n / 100 % 10), Nat.digitChar (n / 10 % 10),
      Nat.digitChar (n % 10)] := by
  rw [toDec_eq, if_neg (by omega), toDec_d4 (n / 10) (by omega) (by omega)]
  have e1 : n / 10 / 1000 = n / 10000 := by omega
  have e2 : n / 10 / 100 % 10 = n / 1000 % 10 := by omega
  have e3 : n / 10 / 10 % 10 = n / 100 % 10 := by omega
  rw [e1, e2, e3]
  rfl

lemma pad5_eq_dig5 (n : Nat) (h : n < 100000) :
    pad5 n = (dig5 n).map Nat.digitChar := by
  unfold pad5 dig5
  by_cases c1 : n < 10
  · rw [toDec_d1 n c1]
    have e1 : n / 10000 = 0 := by omega
    have e2 : n / 1000 % 10 = 0 := by omega
    have e3 : n / 100 % 10 = 0 := by omega
    have e4 : n / 10 % 10 = 0 := by omega
    have e5 : n % 10 = n := by omega
    rw [e1, e2, e3, e4, e5]
    rfl
  · by_cases c2 : n < 100
    · rw [toDec_d2 n (by omega) c2]
      have e1 : n / 10000 = 0 := by omega
      have e2 : n / 1000 % 10 = 0 := by omega
      have e3 : n / 100 % 10 = 0 := by omega
      have e4 : n / 10 % 10 = n / 10 := by omega
      rw [e1, e2, e3, e4]
      rfl
    · by_cases c3 : n < 1000
      · rw [toDec_d3 n (by omega) c3]
        have e1 : n / 10000 = 0 := by omega
        have e2 : n / 1000 % 10 = 0 := by omega
        have e3 : n / 100 % 10 = n / 100 := by omega
        rw [e1, e2, e3]
        rfl
      · by_cases c4 : n < 10000
        · rw [toDec_d4 n (by omega) c4]
          have e1 : n / 10000 = 0 := by omega
          have e2 : n / 1000 % 10 = n / 1000 := by omega
          rw [e1, e2]
          rfl
        · rw [toDec_d5 n (by omega) h]
          have e1 : n / 10000 % 10 = n / 10000 := by omega
          rfl

lemma digitChar_lt_iff : ∀ a < 10, ∀ b < 10,
    (Nat.digitChar a < Nat.digitChar b ↔ a < b) := by decide

lemma digitChar_eq_iff : ∀ a < 10, ∀ b < 10,
    (Nat.digitChar a = Nat.digitChar b ↔ a = b) := by decide

lemma valMSF_foldl (ds : List Nat) :
    ∀ a, ds.foldl (fun x d => 10 * x + d) a = a * 10 ^ ds.length + valMSF ds := by
  induction ds with
  | nil => intro a; simp [valMSF]
  | cons d ds ih =>
    intro a
    have hv : valMSF (d :: ds) = d * 10 ^ ds.length + valMSF ds := by
      simp only [valMSF, List.foldl_cons, Nat.mul_zero, Nat.zero_add]
      rw [ih d]
      rfl
    simp only [List.foldl_cons]
    rw [ih (10 * a + d), hv, List.length_cons, pow_succ]
    ring

lemma valMSF_cons (d : Nat) (ds : List Nat) :
    valMSF (d :: ds) = d * 10 ^ ds.length + valMSF ds := by
  simp only [valMSF, List.foldl_cons, Nat.mul_zero, Nat.zero_add]
  rw [valMSF_foldl ds d]
  rfl

lemma valMSF_lt (ds : List Nat) (h : ∀ d ∈ ds, d < 10) :
    valMSF ds < 10 ^ ds.length := by
  induction ds with
  | nil => simp [valMSF]
  | cons d ds ih =>
    rw [valMSF_cons]
    have hd : d < 10 := h d (by simp)
    have hds := ih (fun x hx => h x (by simp [hx]))
    have h1 : d * 10 ^ ds.length + valMSF ds < (d + 1) * 10 ^ ds.length := by
      have := hds
      nlinarith [pow_pos (by norm_num : (0:ℕ) < 10) ds.length]
    have h2 : (d + 1) * 10 ^ ds.length ≤ 10 * 10 ^ ds.length :=
      Nat.mul_le_mul_right _ (by omega)
    calc d * 10 ^ ds.length + valMSF ds < (d + 1) * 10 ^ ds.length := h1
      _ ≤ 10 * 10 ^ ds.length := h2
      _ = 10 ^ (d :: ds).length := by simp [pow_succ]; ring

lemma strLe_digits : ∀ (ds es : List Nat), ds.length = es.length →
    (∀ d ∈ ds, d < 10) → (∀ e ∈ es, e < 10) →
    strLe (ds.map Nat.digitChar) (es.map Nat.digitChar) =
      decide (valMSF ds ≤ valMSF es) := by
  intro ds
  induction ds with
  | nil =>
    intro es hlen _ _
    have : es = [] := List.length_eq_zero.mp hlen.symm
    subst this
    simp [strLe, valMSF]
  | cons d ds ih =>
    intro es hlen hds hes
    match es with
    | [] => simp at hlen
    | e :: es =>
      have hd : d < 10 := hds d (by simp)
      have he : e < 10 := hes e (by simp)
      have hlen' : ds.length = es.length := by simpa using hlen
      simp only [List.map_cons, strLe]
      by_cases hde : d = e
      · subst hde
        rw [if_pos rfl, ih es hlen' (fun x hx => hds x (by simp [hx]))
          (fun x hx => hes x (by simp [hx]))]
        have hiff : valMSF ds ≤ valMSF es ↔ valMSF (d :: ds) ≤ valMSF (d :: es) := by
          rw [valMSF_cons, valMSF_cons, hlen']
          omega
        by_cases hv : valMSF ds ≤ valMSF es
        · simp [hv, hiff.mp hv]
        · have : ¬ valMSF (d :: ds) ≤ valMSF (d :: es) := fun hc => hv (by
            rw [valMSF_cons, valMSF_cons, hlen'] at hc
            omega)
          simp [hv, this]
      · have hne : Nat.digitChar d ≠ Nat.digitChar e := by
          intro hc
          exact hde ((digitChar_eq_iff d hd e he).mp hc)
        rw [if_neg hne]
        have hvds := valMSF_lt ds (fun x hx => hds x (by simp [hx]))
        have hves := valMSF_lt es (fun x hx => hes x (by simp [hx]))
        by_cases hlt : d < e
        · have h1 : valMSF (d :: ds) ≤ valMSF (e :: es) := by
            rw [valMSF_cons, valMSF_cons, hlen']
            have : (d + 1) * 10 ^ es.length ≤ e * 10 ^ es.length :=
              Nat.mul_le_mul_right _ (by omega)
            rw [hlen'] at hvds
            nlinarith
          simp [(digitChar_lt_iff d hd e he).mpr hlt, hlt, h1]
        · have helt : e < d := by omega
          have h1 : ¬ valMSF (d :: ds) ≤ valMSF (e :: es) := by
            rw [valMSF_cons, valMSF_cons, hlen']
            have : (e + 1) * 10 ^ es.length ≤ d * 10 ^ es.length :=
              Nat.mul_le_mul_right _ (by omega)
            nlinarith
          have h2 : ¬ Nat.digitChar d < Nat.digitChar e := by
            intro hc
            exact absurd ((digitChar_lt_iff d hd e he).mp hc) (by omega)
          simp [h2, h1]

lemma dig5_val (n : Nat) (h : n < 100000) : valMSF (dig5 n) = n := by
  simp only [dig5, valMSF, List.foldl_cons, List.foldl_nil]
  omega

lemma dig5_lt (n : Nat) (h : n < 100000) : ∀ d ∈ dig5 n, d < 10 := by
  intro d hd
  simp only [dig5, List.mem_cons, List.not_mem_nil, or_false] at hd
  rcases hd with h1 | h1 | h1 | h1 | h1 <;> subst h1 <;> omega

lemma strLe_pad5 (i j : Nat) (hi : i < 100000) (hj : j < 100000) :
    strLe (pad5 i) (pad5 j) = decide (i ≤ j) := by
  rw [pad5_eq_dig5 i hi, pad5_eq_dig5 j hj,
    strLe_digits (dig5 i) (dig5 j) (by simp [dig5]) (dig5_lt i hi) (dig5_lt j hj),
    dig5_val i hi, dig5_val j hj]

lemma strLe_refl (s : Str) : strLe s s = true := by
  induction s with
  | nil => rfl
  | cons c cs ih => simp [strLe, ih]

lemma strLe_append_left (x : Str) : ∀ a b, strLe (x ++ a) (x ++ b) = strLe a b := by
  induction x with
  | nil => intro a b; rfl
  | cons c cs ih => intro a b; simp [strLe, ih]

lemma strLe_append_same : ∀ (a b s : Str), a.length = b.length →
    strLe (a ++ s) (b ++ s) = strLe a b := by
  intro a
  induction a with
  | nil =>
    intro b s hlen
    have : b = [] := List.length_eq_zero.mp hlen.symm
    subst this
    simp [strLe_refl, strLe]
  | cons x a ih =>
    intro b s hlen
    match b with
    | [] => simp at hlen
    | y :: b =>
      have hlen' : a.length = b.length := by simpa using hlen
      simp only [List.cons_append, strLe]
      by_cases hxy : x = y
      · simp [hxy, ih b s hlen']
      · simp [hxy]

lemma pad5_length (n : Nat) (h : n < 100000) : (pad5 n).length = 5 := by
  rw [pad5_eq_dig5 n h]
  simp [dig5]

lemma fnameLe_eq_idxLe (p q : Nat × Bytes) (hp : p.1 < 100000) (hq : q.1 < 100000) :
    fnameLe p q = idxLe p q := by
  unfold fnameLe idxLe segFileName
  rw [List.append_assoc, List.append_assoc, strLe_append_left,
    strLe_append_same (pad5 p.1) (pad5 q.1) (".ts".data)
      (by rw [pad5_length p.1 hp, pad5_length q.1 hq]),
    strLe_pad5 p.1 q.1 hp hq]

/-! Lemmas about the insertion sort modelling `sorted`. -/

lemma mem_insertLe {α : Type} (le : α → α → Bool) (a x : α) :
    ∀ l, x ∈ insertLe le a l ↔ x = a ∨ x ∈ l := by
  intro l
  induction l with
  | nil => simp [insertLe]
  | cons b bs ih =>
    simp only [insertLe]
    split <;> simp [ih, eq_comm] <;> tauto

lemma perm_insertLe {α : Type} (le : α → α → Bool) (a : α) :
    ∀ l, (insertLe le a l).Perm (a :: l) := by
  intro l
  induction l with
  | nil => simp [insertLe]
  | cons b bs ih =>
    simp only [insertLe]
    split
    · exact List.Perm.refl _
    · exact (List.Perm.cons b ih).trans (List.Perm.swap a b bs)

lemma perm_sortLe {α : Type} (le : α → α → Bool) :
    ∀ l, (sortLe le l).Perm l := by
  intro l
  induction l with
  | nil => exact List.Perm.refl _
  | cons a as ih =>
    exact ((perm_insertLe le a (sortLe le as)).trans (List.Perm.cons a ih))

lemma insertLe_congr {α : Type} (le₁ le₂ : α → α → Bool) (a : α) :
    ∀ l, (∀ y ∈ l, le₁ a y = le₂ a y) → insertLe le₁ a l = insertLe le₂ a l := by
  intro l
  induction l with
  | nil => intro _; rfl
  | cons b bs ih =>
    intro h
    simp only [insertLe, h b (by simp)]
    split
    · rfl
    · rw [ih (fun y hy => h y (by simp [hy]))]

lemma sortLe_congr {α : Type} (le₁ le₂ : α → α → Bool) :
    ∀ l, (∀ x ∈ l, ∀ y ∈ l, le₁ x y = le₂ x y) → sortLe le₁ l = sortLe le₂ l := by
  intro l
  induction l with
  | nil => intro _; rfl
  | cons a as ih =>
    intro h
    simp only [sortLe]
    rw [ih (fun x hx y hy => h x (by simp [hx]) y (by simp [hy]))]
    refine insertLe_congr le₁ le₂ a (sortLe le₂ as) (fun y hy => ?_)
    have hy' : y ∈ as := ((perm_sortLe le₂ as).mem_iff).mp hy
    exact h a (by simp) y (by simp [hy'])

lemma pairwise_insertLe {α : Type} (le : α → α → Bool)
    (htot : ∀ x y, le x y = false → le y x = true)
    (htrans : ∀ x y z, le x y = true → le y z = true → le x z = true) (a : α) :
    ∀ l, l.Pairwise (fun x y => le x y = true) →
      (insertLe le a l).Pairwise (fun x y => le x y = true) := by
  intro l
  induction l with
  | nil => intro _; simp [insertLe]
  | cons b bs ih =>
    intro hl
    rw [List.pairwise_cons] at hl
    obtain ⟨hb, hbs⟩ := hl
    simp only [insertLe]
    by_cases hab : le a b = true
    · rw [if_pos hab]
      refine List.Pairwise.cons ?_ (List.Pairwise.cons hb hbs)
      intro x hx
      rcases List.mem_cons.mp hx with hxb | hxs
      · rw [hxb]; exact hab
      · exact htrans a b x hab (hb x hxs)
    · rw [if_neg hab]
      refine List.Pairwise.cons ?_ (ih hbs)
      intro x hx
      rcases (mem_insertLe le a x bs).mp hx with hxa | hxs
      · rw [hxa]
        exact htot a b (by simpa using hab)
      · exact hb x hxs

lemma pairwise_sortLe {α : Type} (le : α → α → Bool)
    (htot : ∀ x y, le x y = false → le y x = true)
    (htrans : ∀ x y z, le x y = true → le y z = true → le x z = true) :
    ∀ l, (sortLe le l).Pairwise (fun x y => le x y = true) := by
  intro l
  induction l with
  | nil => simp [sortLe]
  | cons a as ih => exact pairwise_insertLe le htot htrans a (sortLe le as) ih

lemma insertLe_of_forall_le {α : Type} (le : α → α → Bool) (a : α) (l : List α)
    (h : ∀ b ∈ l, le a b = true) : insertLe le a l = a :: l := by
  cases l with
  | nil => rfl
  | cons b bs => simp [insertLe, h b (by simp)]

lemma sortLe_of_pairwise {α : Type} (le : α → α → Bool) :
    ∀ l, l.Pairwise (fun x y => le x y = true) → sortLe le l = l := by
  intro l
  induction l with
  | nil => intro _; rfl
  | cons a as ih =>
    intro h
    rw [List.pairwise_cons] at h
    simp only [sortLe]
    rw [ih h.2, insertLe_of_forall_le le a as h.1]

lemma idxLe_total (p q : Nat × Bytes) (h : idxLe p q = false) : idxLe q p = true := by
  simp only [idxLe, decide_eq_false_iff_not, decide_eq_true_eq] at h ⊢
  omega

lemma idxLe_trans (p q r : Nat × Bytes) (h1 : idxLe p q = true) (h2 : idxLe q r = true) :
    idxLe p r = true := by
  simp only [idxLe, decide_eq_true_eq] at h1 h2 ⊢
  omega

lemma sorted_perm_unique : ∀ (l₁ l₂ : List (Nat × Bytes)), l₁.Perm l₂ →
    l₁.Pairwise (fun p q => p.1 ≤ q.1) → l₂.Pairwise (fun p q => p.1 ≤ q.1) →
    (l₁.map Prod.fst).Nodup → l₁ = l₂ := by
  intro l₁ l₂ hperm hs₁ hs₂ hnd₁
  haveI : IsAntisymm (Nat × Bytes) (fun p q => p.1 < q.1) :=
    ⟨fun p q h h' => absurd (lt_trans h h') (lt_irrefl _)⟩
  have hnd₂ : (l₂.map Prod.fst).Nodup := ((hperm.map Prod.fst).nodup_iff).mp hnd₁
  have hne₁ : l₁.Pairwise (fun p q => p.1 ≠ q.1) := by
    have := hnd₁
    rw [List.Nodup, List.pairwise_map] at this
    exact this
  have hne₂ : l₂.Pairwise (fun p q => p.1 ≠ q.1) := by
    have := hnd₂
    rw [List.Nodup, List.pairwise_map] at this
    exact this
  have hlt₁ : l₁.Pairwise (fun p q => p.1 < q.1) :=
    (hs₁.and hne₁).imp (fun h => lt_of_le_of_ne h.1 h.2)
  have hlt₂ : l₂.Pairwise (fun p q => p.1 < q.1) :=
    (hs₂.and hne₂).imp (fun h => lt_of_le_of_ne h.1 h.2)
  exact List.eq_of_perm_of_sorted hperm hlt₁ hlt₂

/-! Claim theorems for the merge step. -/

/-- C3 counterexample: the 5-digit zero padding of the segment file names
only aligns the lexicographic order of `sorted` with the numeric index order
below index 100000.  With one-byte segments at indices 99999 and 100000 the
fallback merge emits the bytes in the order `[2, 1]`, not the ascending-index
concatenation `[1, 2]`: `"segment_100000.ts" < "segment_99999.ts"`
lexicographically. -/
theorem merge_order_counterexample :
    mergedBytes [(99999, [1]), (100000, [2])] = [2, 1] ∧
    ascBytes [(99999, [1]), (100000, [2])] = [1, 2] ∧
    mergedBytes [(99999, [1]), (100000, [2])] ≠
      ascBytes [(99999, [1]), (100000, [2])] := by decide

/-- C3 (amended: all indices below the padding bound 100000, and distinct,
as produced by any run of fewer than 100001 segments): the fallback merge
output equals the concatenation of the segment bytes in ascending index
order, and is independent of the enumeration order of the scratch
directory. -/
theorem merge_ascending_below_pad_bound (scratch : List (Nat × Bytes))
    (hb : ∀ p ∈ scratch, p.1 < 100000)
    (hnd : (scratch.map Prod.fst).Nodup) :
    mergedBytes scratch = ascBytes scratch ∧
    ∀ scratch₂, scratch.Perm scratch₂ → mergedBytes scratch = mergedBytes scratch₂ := by
  have key : ∀ (l : List (Nat × Bytes)), (∀ p ∈ l, p.1 < 100000) →
      mergedBytes l = ascBytes l := by
    intro l hl
    unfold mergedBytes ascBytes
    rw [sortLe_congr fnameLe idxLe l
      (fun x hx y hy => fnameLe_eq_idxLe x y (hl x hx) (hl y hy))]
  refine ⟨key scratch hb, fun scratch₂ hperm => ?_⟩
  have hb₂ : ∀ p ∈ scratch₂, p.1 < 100000 := fun p hp => hb p (hperm.mem_iff.mpr hp)
  rw [key scratch hb, key scratch₂ hb₂]
  unfold ascBytes
  have hsorted : ∀ (l : List (Nat × Bytes)),
      (sortLe idxLe l).Pairwise (fun p q => p.1 ≤ q.1) := by
    intro l
    refine (pairwise_sortLe idxLe idxLe_total idxLe_trans l).imp (fun h => ?_)
    simpa [idxLe] using h
  have hperm' : (sortLe idxLe scratch).Perm (sortLe idxLe scratch₂) :=
    ((perm_sortLe idxLe scratch).trans hperm).trans (perm_sortLe idxLe scratch₂).symm
  have hnd' : ((sortLe idxLe scratch).map Prod.fst).Nodup :=
    (((perm_sortLe idxLe scratch).map Prod.fst).nodup_iff).mpr hnd
  rw [sorted_perm_unique (sortLe idxLe scratch) (sortLe idxLe scratch₂) hperm'
    (hsorted scratch) (hsorted scratch₂) hnd']

/-- Witness for C3 (amended) on three one-byte segments listed out of order:
the merge emits `0x01 0x02 0x03` and is unchanged under reordering. -/
theorem merge_ascending_below_pad_bound_witness :
    mergedBytes [(2, [3]), (0, [1]), (1, [2])] = ascBytes [(2, [3]), (0, [1]), (1, [2])] ∧
    mergedBytes [(2, [3]), (0, [1]), (1, [2])] = [1, 2, 3] ∧
    mergedBytes [(2, [3]), (0, [1]), (1, [2])] =
      mergedBytes [(0, [1]), (1, [2]), (2, [3])] := by
  have T := merge_ascending_below_pad_bound [(2, [3]), (0, [1]), (1, [2])]
    (by decide) (by decide)
  exact ⟨T.1, by decide, T.2 [(0, [1]), (1, [2]), (2, [3])] (by decide)⟩

/-- C6 counterexample: after a successful merge the scratch directory has
been removed (`shutil.rmtree`), so a second `merge_files` call raises at
`os.listdir`/the empty file list and returns `False` — merge is not
re-invokable after success. -/
theorem merge_second_after_success_fails :
    (merge_files [(0, [1])]).1 = some [1] ∧
    (merge_files (merge_files [(0, [1])]).2).1 = none := by decide

/-- C6 (amended): a successful merge clears the scratch directory, so a
second invocation fails rather than succeeding; merge is safely re-invokable
only after a failure, which leaves the scratch directory intact and makes the
retry return the same result. -/
theorem merge_retry_after_failure (scratch : List (Nat × Bytes)) :
    ((merge_files scratch).1.isSome = true →
      (merge_files (merge_files scratch).2).1 = none) ∧
    ((merge_files scratch).1 = none →
      (merge_files scratch).2 = scratch ∧
      merge_files ((merge_files scratch).2) = merge_files scratch) := by
  by_cases h : scratch.isEmpty <;> simp [merge_files, h]

/-- Witness for C6 (amended): the failing empty-scratch merge leaves the
state unchanged and retries identically. -/
theorem merge_retry_after_failure_witness :
    (merge_files ([] : List (Nat × Bytes))).2 = [] ∧
    merge_files ((merge_files ([] : List (Nat × Bytes))).2) =
      merge_files ([] : List (Nat × Bytes)) :=
  (merge_retry_after_failure []).2 (by decide)

lemma filterMap_pair_fst_filter (g : Nat → Option Bytes) (l : List Nat) :
    (l.filterMap (fun i => (g i).map (fun b => (i, b)))).map Prod.fst =
      l.filter (fun i => (g i).isSome) := by
  induction l with
  | nil => simp
  | cons i rest ih =>
    cases hg : g i with
    | none => simp [List.filterMap_cons, hg, ih]
    | some b => simp [List.filterMap_cons, hg, ih]

lemma filterMap_pair_map_snd (g : Nat → Option Bytes) (l : List Nat) :
    (l.filterMap (fun i => (g i).map (fun b => (i, b)))).map Prod.snd =
      l.filterMap g := by
  induction l with
  | nil => simp
  | cons i rest ih =>
    cases hg : g i with
    | none => simp [List.filterMap_cons, hg, ih]
    | some b => simp [List.filterMap_cons, hg, ih]

lemma pairwise_filterMap_pair (g : Nat → Option Bytes) (N : Nat) :
    ((List.range N).filterMap (fun i => (g i).map (fun b => (i, b)))).Pairwise
      (fun p q => idxLe p q = true) := by
  refine List.Pairwise.filterMap _ ?_ (List.pairwise_lt_range N)
  intro a a' haa b hb b' hb'
  simp only [Option.mem_def, Option.map_eq_some'] at hb hb'
  obtain ⟨x, _, hxb⟩ := hb
  obtain ⟨x', _, hxb'⟩ := hb'
  subst hxb
  subst hxb'
  simp only [idxLe, decide_eq_true_eq]
  omega

lemma mem_filterMap_pair_bound (g : Nat → Option Bytes) (N : Nat) (p : Nat × Bytes)
    (hp : p ∈ (List.range N).filterMap (fun i => (g i).map (fun b => (i, b)))) :
    p.1 < N := by
  rw [List.mem_filterMap] at hp
  obtain ⟨i, hi, hgi⟩ := hp
  rw [Option.map_eq_some'] at hgi
  obtain ⟨x, _, hxp⟩ := hgi
  subst hxp
  simpa using hi

/-- C9 counterexample: a two-segment run in which segment 1's every attempt
fails midway through the body stream (leaving a partial file) ends with the
partial file in the scratch directory, and the fallback merge concatenates
its bytes into the output even though segment 1 never succeeded. -/
theorem merge_includes_partial_counterexample :
    (start_download
        (fun v _ => if v = "http://h/p/b.ts".data then FetchOutcome.midFail [2] "t".data
          else FetchOutcome.ok [1])
        (fun _ _ => false) (fun _ => false) "http://h/p/i.m3u8".data
        (some "a.ts\nb.ts".data) [0, 1] 3).scratch = [(0, [1]), (1, [2])] ∧
    (download_segment
        (fun v _ => if v = "http://h/p/b.ts".data then FetchOutcome.midFail [2] "t".data
          else FetchOutcome.ok [1])
        (fun _ => false) 1 "http://h/p/b.ts".data 3).success = false ∧
    mergedBytes [(0, [1]), (1, [2])] = [1, 2] := by decide

/-- C9 (amended: when the failing attempts of every non-succeeding segment
raise before the segment file is opened — the case with no partial body
writes — and the job has at most 100000 segments): after the run the scratch
directory holds exactly the succeeded segments, and the fallback merge output
is the concatenation of the succeeded segments' bytes in ascending index
order.  (The counterexample shows the restriction is needed: an attempt
failing mid-stream leaves a partial file that the merge happily includes.) -/
theorem merge_only_succeeded_when_no_partial_writes
    (fetch : Str → Nat → FetchOutcome) (u : Str) (body? : Option Str)
    (urls : List Str) (order : List Nat) (N : Nat)
    (hp : parse_m3u8 u body? = some urls) (hN : urls.length = N)
    (hbound : N ≤ 100000) (hord : order.Perm (List.range N))
    (hcases : ∀ i < N, (∃ j < 3, (fetch (urls.getD i []) j).isOk = true) ∨
      (∀ r < 3, (fetch (urls.getD i []) r).isOk = false ∧
        (fetch (urls.getD i []) r).wrote = none)) :
    (start_download fetch (fun _ _ => false) (fun _ => false) u body? order 3).scratch.map
        Prod.fst =
      (List.range N).filter
        (fun i => (download_segment fetch (fun _ => false) i (urls.getD i []) 3).success) ∧
    mergedBytes
        (start_download fetch (fun _ _ => false) (fun _ => false) u body? order 3).scratch =
      ((List.range N).filterMap
        (fun i =>
          (download_segment fetch (fun _ => false) i (urls.getD i []) 3).writes.getLast?)).flatten := by
  have hwrites : ∀ i < N,
      ((download_segment fetch (fun _ => false) i (urls.getD i []) 3).writes.getLast?).isSome =
        (download_segment fetch (fun _ => false) i (urls.getD i []) 3).success := by
    intro i hi
    rcases hcases i hi with hex | hfails
    · have h := download_segment_success_of_exists fetch (fun _ => false) i (urls.getD i []) 3
        (fun _ => rfl) hex
      rw [h.1]
      simpa [List.getLast?_isSome] using h.2.2
    · rw [download_segment_allFail fetch (fun _ => false) i (urls.getD i []) 3 (by omega)
        (fun _ => rfl) (fun r hr => (hfails r hr).1)]
      simp only
      rw [List.filterMap_eq_nil_iff.mpr]
      · rfl
      · intro r hr
        have hr3 : r < 3 := by
          rw [List.mem_range'] at hr
          omega
        exact (hfails r hr3).2
  simp only [start_download, hp]
  constructor
  · rw [filterMap_pair_fst_filter]
    rw [hN]
    exact List.filter_congr (fun i hi => hwrites i (by simpa using hi))
  · have hpair := pairwise_filterMap_pair
      (fun i => (download_segment fetch (fun _ => false) i (urls.getD i []) 3).writes.getLast?)
      urls.length
    have hb : ∀ p ∈ (List.range urls.length).filterMap
        (fun i =>
          ((download_segment fetch (fun _ => false) i (urls.getD i []) 3).writes.getLast?).map
            (fun b => (i, b))), p.1 < 100000 := by
      intro p hp'
      have := mem_filterMap_pair_bound
        (fun i => (download_segment fetch (fun _ => false) i (urls.getD i []) 3).writes.getLast?)
        urls.length p hp'
      omega
    unfold mergedBytes
    rw [sortLe_congr fnameLe idxLe _
      (fun x hx y hy => fnameLe_eq_idxLe x y (hb x hx) (hb y hy))]
    rw [sortLe_of_pairwise idxLe _ hpair]
    rw [filterMap_pair_map_snd]
    rw [hN]

/-- Witness for C9 (amended): segment 0 succeeds with byte 1, segment 1's
attempts all fail before opening the file; scratch holds exactly segment 0
and the merge output is `[1]`. -/
theorem merge_only_succeeded_when_no_partial_writes_witness :
    (start_download
        (fun v _ => if v = "http://h/p/b.ts".data then FetchOutcome.reqFail "x".data
          else FetchOutcome.ok [1])
        (fun _ _ => false) (fun _ => false) "http://h/p/i.m3u8".data
        (some "a.ts\nb.ts".data) [0, 1] 3).scratch.map Prod.fst =
      (List.range 2).filter
        (fun i => (download_segment
          (fun v _ => if v = "http://h/p/b.ts".data then FetchOutcome.reqFail "x".data
            else FetchOutcome.ok [1])
          (fun _ => false) i
          ((["http://h/p/a.ts".data, "http://h/p/b.ts".data]).getD i []) 3).success) ∧
    (start_download
        (fun v _ => if v = "http://h/p/b.ts".data then FetchOutcome.reqFail "x".data
          else FetchOutcome.ok [1])
        (fun _ _ => false) (fun _ => false) "http://h/p/i.m3u8".data
        (some "a.ts\nb.ts".data) [0, 1] 3).scratch = [(0, [1])] := by
  have T := merge_only_succeeded_when_no_partial_writes
    (fun v _ => if v = "http://h/p/b.ts".data then FetchOutcome.reqFail "x".data
      else FetchOutcome.ok [1])
    "http://h/p/i.m3u8".data (some "a.ts\nb.ts".data)
    ["http://h/p/a.ts".data, "http://h/p/b.ts".data] [0, 1] 2
    (by decide) (by decide) (by decide) (by decide) (by decide)
  exact ⟨T.1, by decide⟩

/-! Lemmas for claim C8: the byte-range regex substitution versus line
discard. -/

lemma splitLines_cons_nl (t : Str) : splitLines ('\n' :: t) = [] :: splitLines t := by
  simp [splitLines]

lemma splitLines_cons_other (c : Char) (t : Str) (hc : c ≠ '\n') (hcr : c ≠ '\r') :
    splitLines (c :: t) = match splitLines t with
      | [] => [[c]]
      | l :: ls => (c :: l) :: ls := by
  simp [splitLines, hc, hcr]

lemma splitLines_noCR_ne_nil : ∀ (s : Str), '\r' ∉ s → splitLines s ≠ [] := by
  intro s hs
  cases s with
  | nil => simp [splitLines]
  | cons c cs =>
    by_cases hc : c = '\n'
    · subst hc
      rw [splitLines_cons_nl]
      simp
    · rw [splitLines_cons_other c cs hc (fun hcr => hs (by simp [hcr]))]
      cases splitLines cs <;> simp

lemma splitLines_noCR_chars : ∀ (s : Str), '\r' ∉ s →
    ∀ l ∈ splitLines s, '\n' ∉ l ∧ '\r' ∉ l := by
  intro s
  induction s with
  | nil =>
    intro _ l hl
    simp [splitLines] at hl
    subst hl
    simp
  | cons c cs ih =>
    intro hs l hl
    have hcs : '\r' ∉ cs := fun hm => hs (by simp [hm])
    by_cases hc : c = '\n'
    · subst hc
      rw [splitLines_cons_nl] at hl
      rcases List.mem_cons.mp hl with h | h
      · subst h; simp
      · exact ih hcs l h
    · have hcr : c ≠ '\r' := fun hcr => hs (by simp [hcr])
      rw [splitLines_cons_other c cs hc hcr] at hl
      rcases hsp : splitLines cs with _ | ⟨l₀, ls₀⟩
      · exact absurd hsp (splitLines_noCR_ne_nil cs hcs)
      · rw [hsp] at hl
        rcases List.mem_cons.mp hl with h | h
        · subst h
          have hl₀ := ih hcs l₀ (by rw [hsp]; simp)
          simp only [List.mem_cons]
          constructor
          · intro hx
            rcases hx with hx | hx
            · exact hc hx.symm
            · exact hl₀.1 hx
          · intro hx
            rcases hx with hx | hx
            · exact hcr hx.symm
            · exact hl₀.2 hx
        · exact ih hcs l (by rw [hsp]; simp [h])

lemma joinNl_cons_cons (c : Char) (l : Str) (ls : List Str) :
    joinNl ((c :: l) :: ls) = c :: joinNl (l :: ls) := by
  cases ls <;> simp [joinNl]

lemma joinNl_splitLines : ∀ (s : Str), '\r' ∉ s → joinNl (splitLines s) = s := by
  intro s
  induction s with
  | nil => intro _; rfl
  | cons c cs ih =>
    intro hs
    have hcs : '\r' ∉ cs := fun hm => hs (by simp [hm])
    by_cases hc : c = '\n'
    · subst hc
      rw [splitLines_cons_nl]
      rcases hsp : splitLines cs with _ | ⟨l₀, ls₀⟩
      · exact absurd hsp (splitLines_noCR_ne_nil cs hcs)
      · have := ih hcs
        rw [hsp] at this
        simp only [joinNl, List.nil_append]
        rw [this]
    · have hcr : c ≠ '\r' := fun h => hs (by simp [h])
      rw [splitLines_cons_other c cs hc hcr]
      rcases hsp : splitLines cs with _ | ⟨l₀, ls₀⟩
      · exact absurd hsp (splitLines_noCR_ne_nil cs hcs)
      · have := ih hcs
        rw [hsp] at this
        rw [joinNl_cons_cons, this]

lemma splitLines_line_append : ∀ (l : Str) (t : Str), '\n' ∉ l → '\r' ∉ l →
    splitLines (l ++ '\n' :: t) = l :: splitLines t := by
  intro l
  induction l with
  | nil => intro t _ _; rw [List.nil_append, splitLines_cons_nl]
  | cons c l ih =>
    intro t hn hr
    have hc : c ≠ '\n' := fun h => hn (by simp [h])
    have hcr : c ≠ '\r' := fun h => hr (by simp [h])
    rw [List.cons_append, splitLines_cons_other c _ hc hcr,
      ih t (fun h => hn (by simp [h])) (fun h => hr (by simp [h]))]

lemma splitLines_line : ∀ (l : Str), '\n' ∉ l → '\r' ∉ l → splitLines l = [l] := by
  intro l
  induction l with
  | nil => intro _ _; rfl
  | cons c l ih =>
    intro hn hr
    have hc : c ≠ '\n' := fun h => hn (by simp [h])
    have hcr : c ≠ '\r' := fun h => hr (by simp [h])
    rw [splitLines_cons_other c _ hc hcr,
      ih (fun h => hn (by simp [h])) (fun h => hr (by simp [h]))]

lemma subBRAux_nil : ∀ f, subBRAux f [] = [] := by
  intro f
  cases f <;> rfl

lemma dropRestOfLine_no_nl : ∀ (x : Str), '\n' ∉ x → dropRestOfLine x = [] := by
  intro x
  induction x with
  | nil => intro _; rfl
  | cons c cs ih =>
    intro h
    have hc : c ≠ '\n' := fun hh => h (by simp [hh])
    simp only [dropRestOfLine, hc, if_false]
    exact ih (fun hh => h (by simp [hh]))

lemma dropRestOfLine_append : ∀ (x : Str) (t : Str), '\n' ∉ x →
    dropRestOfLine (x ++ '\n' :: t) = t := by
  intro x
  induction x with
  | nil => intro t _; simp [dropRestOfLine]
  | cons c cs ih =>
    intro t h
    have hc : c ≠ '\n' := fun hh => h (by simp [hh])
    rw [List.cons_append]
    simp only [dropRestOfLine, hc, if_false]
    exact ih t (fun hh => h (by simp [hh]))

lemma subBRAux_irrel : ∀ (n : Nat) (s : Str), s.length ≤ n →
    ∀ f₁ f₂, s.length ≤ f₁ → s.length ≤ f₂ → subBRAux f₁ s = subBRAux f₂ s := by
  intro n
  induction n with
  | zero =>
    intro s hs f₁ f₂ _ _
    have hnil : s = [] := by
      cases s
      · rfl
      · simp at hs
    subst hnil
    rw [subBRAux_nil, subBRAux_nil]
  | succ n ih =>
    intro s hs f₁ f₂ h₁ h₂
    cases s with
    | nil => rw [subBRAux_nil, subBRAux_nil]
    | cons c cs =>
      match f₁, h₁ with
      | f₁ + 1, h₁ =>
        match f₂, h₂ with
        | f₂ + 1, h₂ =>
          simp only [subBRAux]
          by_cases hm : (c :: cs).take brChars.length = brChars
          · rw [if_pos hm, if_pos hm]
            have hlen16 : brChars.length ≤ (c :: cs).length := by
              have := congrArg List.length hm
              rw [List.length_take] at this
              omega
            have hd := dropRestOfLine_length_le ((c :: cs).drop brChars.length)
            rw [List.length_drop] at hd
            have hbr16 : brChars.length = 16 := by decide
            refine ih _ ?_ f₁ f₂ ?_ ?_ <;> simp only [List.length_cons] at * <;> omega
          · rw [if_neg hm, if_neg hm]
            have hcs : cs.length ≤ n := by simp only [List.length_cons] at hs; omega
            rw [ih cs hcs f₁ f₂ (by simp only [List.length_cons] at h₁; omega)
              (by simp only [List.length_cons] at h₂; omega)]

lemma subByteRange_match (s : Str) (h : s.take brChars.length = brChars) :
    subByteRange s = subByteRange (dropRestOfLine (s.drop brChars.length)) := by
  cases s with
  | nil => exact absurd h (by decide)
  | cons c cs =>
    unfold subByteRange
    rw [show (c :: cs).length = cs.length + 1 from rfl]
    simp only [subBRAux, h, if_true]
    have hlen16 : brChars.length ≤ (c :: cs).length := by
      have := congrArg List.length h
      rw [List.length_take] at this
      omega
    have hd := dropRestOfLine_length_le ((c :: cs).drop brChars.length)
    rw [List.length_drop] at hd
    have hbr16 : brChars.length = 16 := by decide
    refine subBRAux_irrel cs.length _ ?_ _ _ ?_ le_rfl <;>
      simp only [List.length_cons] at * <;> omega

lemma subByteRange_no_match (c : Char) (cs : Str)
    (h : ¬ (c :: cs).take brChars.length = brChars) :
    subByteRange (c :: cs) = c :: subByteRange cs := by
  unfold subByteRange
  rw [show (c :: cs).length = cs.length + 1 from rfl]
  simp only [subBRAux, h, if_false]

lemma no_match_head (l t : Str) (hno : hasSub brChars l = false) :
    ¬ ((l ++ '\n' :: t).take brChars.length = brChars) := by
  intro h
  by_cases hlen : brChars.length ≤ l.length
  · rw [List.take_append_of_le_length hlen] at h
    cases l with
    | nil =>
      have : brChars.length = 0 := by simpa using hlen
      exact absurd this (by decide)
    | cons c cs =>
      simp only [hasSub, h] at hno
      simp at hno
  · push_neg at hlen
    rw [List.take_append_eq_append_take] at h
    have hnl : '\n' ∈ brChars := by
      rw [← h]
      apply List.mem_append_right
      rcases hk : brChars.length - l.length with _ | k
      · omega
      · simp [List.take]
    exact absurd hnl (by decide)

lemma hasSub_false_of (l : Str) (hbr : ¬ l.take brChars.length = brChars)
    (htail : hasSub brChars (l.drop 1) = false) : hasSub brChars l = false := by
  cases l with
  | nil => rfl
  | cons c cs =>
    simp only [hasSub, Bool.or_eq_false_iff]
    constructor
    · simpa using hbr
    · simpa using htail

lemma subByteRange_line_keep : ∀ (l : Str), '\n' ∉ l → hasSub brChars l = false →
    (∀ t, subByteRange (l ++ '\n' :: t) = l ++ '\n' :: subByteRange t) ∧
    subByteRange l = l := by
  intro l
  induction l with
  | nil =>
    intro _ _
    refine ⟨fun t => ?_, rfl⟩
    rw [List.nil_append, subByteRange_no_match '\n' t (no_match_head [] t (by decide)),
      List.nil_append]
  | cons c cs ih =>
    intro hn hno
    have hcn : '\n' ∉ cs := fun h => hn (by simp [h])
    have hparts : ¬ ((c :: cs).take brChars.length = brChars) ∧
        hasSub brChars cs = false := by
      simp only [hasSub, Bool.or_eq_false_iff] at hno
      exact ⟨by simpa using hno.1, hno.2⟩
    have ihr := ih hcn hparts.2
    constructor
    · intro t
      have hmm := no_match_head (c :: cs) t hno
      rw [List.cons_append] at hmm ⊢
      rw [subByteRange_no_match c _ hmm, (ihr.1 t), List.cons_append]
    · rw [subByteRange_no_match c cs hparts.1, ihr.2]

lemma subByteRange_line_drop (l : Str) (hn : '\n' ∉ l)
    (hbr : l.take brChars.length = brChars) :
    (∀ t, subByteRange (l ++ '\n' :: t) = subByteRange t) ∧
    subByteRange l = [] := by
  have hlen : brChars.length ≤ l.length := by
    have := congrArg List.length hbr
    rw [List.length_take] at this
    omega
  have hdnl : '\n' ∉ l.drop brChars.length := fun hm => hn (List.mem_of_mem_drop hm)
  constructor
  · intro t
    have htake : (l ++ '\n' :: t).take brChars.length = brChars := by
      rw [List.take_append_of_le_length hlen]
      exact hbr
    rw [subByteRange_match _ htake, List.drop_append_of_le_length hlen,
      dropRestOfLine_append _ t hdnl]
  · rw [subByteRange_match _ hbr, dropRestOfLine_no_nl _ hdnl]
    rfl

lemma procLines_append_line (l X : Str) (hn : '\n' ∉ l) (hr : '\r' ∉ l) :
    procLines (l ++ '\n' :: X) =
      (if (pyStrip l).isEmpty then [] else [pyStrip l]) ++ procLines X := by
  unfold procLines
  rw [splitLines_line_append l X hn hr, List.map_cons, List.filter_cons]
  by_cases hs : (pyStrip l).isEmpty
  · simp [hs]
  · simp [hs]

lemma procLines_subByteRange : ∀ (ls : List Str),
    (∀ l ∈ ls, '\n' ∉ l) → (∀ l ∈ ls, '\r' ∉ l) →
    (∀ l ∈ ls, hasSub brChars (l.drop 1) = false) →
    procLines (subByteRange (joinNl ls)) =
      ((ls.filter (fun l => !(l.take brChars.length = brChars : Bool))).map pyStrip).filter
        (fun l => !l.isEmpty) := by
  intro ls
  induction ls with
  | nil => intro _ _ _; decide
  | cons l ls ih =>
    intro h1 h2 h3
    have hln : '\n' ∉ l := h1 l (by simp)
    have hlr : '\r' ∉ l := h2 l (by simp)
    have hl3 : hasSub brChars (l.drop 1) = false := h3 l (by simp)
    have ih' := ih (fun x hx => h1 x (by simp [hx]))
      (fun x hx => h2 x (by simp [hx])) (fun x hx => h3 x (by simp [hx]))
    by_cases hbr : l.take brChars.length = brChars
    · have hcond : (!(l.take brChars.length = brChars : Bool)) = false := by
        simp [hbr]
      cases ls with
      | nil =>
        rw [show joinNl [l] = l from rfl, (subByteRange_line_drop l hln hbr).2]
        rw [List.filter_cons]
        simp only [hcond, Bool.false_eq_true, if_false]
        decide
      | cons l₂ ls₂ =>
        rw [show joinNl (l :: l₂ :: ls₂) = l ++ '\n' :: joinNl (l₂ :: ls₂) from rfl,
          (subByteRange_line_drop l hln hbr).1, ih']
        conv_rhs => rw [List.filter_cons]
        simp only [hcond, Bool.false_eq_true, if_false]
    · have hcond : (!(l.take brChars.length = brChars : Bool)) = true := by
        rw [decide_eq_false_iff_not.mpr hbr]
        rfl
      have hno : hasSub brChars l = false := hasSub_false_of l hbr hl3
      cases ls with
      | nil =>
        rw [show joinNl [l] = l from rfl, (subByteRange_line_keep l hln hno).2]
        unfold procLines
        rw [splitLines_line l hln hlr]
        simp [List.filter_cons, hcond]
      | cons l₂ ls₂ =>
        rw [show joinNl (l :: l₂ :: ls₂) = l ++ '\n' :: joinNl (l₂ :: ls₂) from rfl,
          (subByteRange_line_keep l hln hno).1,
          procLines_append_line l _ hln hlr, ih']
        conv_rhs => rw [List.filter_cons]
        simp only [hcond, if_true, List.map_cons, List.filter_cons]
        by_cases hs : (pyStrip l).isEmpty
        · simp [hs]
        · simp [hs]

/-! Claim theorems for the parser's segment-line selection. -/

/-- C8 counterexample: the regex `#EXT-X-BYTERANGE.*\n?` is applied to the
raw body, not to whole lines.  When the marker occurs mid-line the
substitution deletes the rest of that line together with its newline, gluing
the line onto the next one: the body `"a.ts#EXT-X-BYTERANGE\nb.ts"` parses to
the single reference `a.tsb.ts`, while reading the claim as discarding
byte-range directive lines leaves the two references
`a.ts#EXT-X-BYTERANGE` and `b.ts`. -/
theorem parse_midline_byterange_counterexample :
    tsUrlsOf "http://h/p/i.m3u8".data "a.ts#EXT-X-BYTERANGE\nb.ts".data =
      ["http://h/p/a.tsb.ts".data] ∧
    specSegURLs "http://h/p/i.m3u8".data "a.ts#EXT-X-BYTERANGE\nb.ts".data =
      ["http://h/p/a.ts#EXT-X-BYTERANGE".data, "http://h/p/b.ts".data] ∧
    tsUrlsOf "http://h/p/i.m3u8".data "a.ts#EXT-X-BYTERANGE\nb.ts".data ≠
      specSegURLs "http://h/p/i.m3u8".data "a.ts#EXT-X-BYTERANGE\nb.ts".data := by
  decide

/-- C8 (amended: for manifest bodies with `\n` line endings — no carriage
returns — in which the `#EXT-X-BYTERANGE` marker occurs only at the start of
a line): exactly the non-blank lines not starting with `#`, after the
byte-range directive lines are discarded, are taken as segment references,
each resolved against the directory portion of the manifest URL. -/
theorem parse_segment_lines_anchored (u content : Str)
    (hcr : content.all (fun c => !(c = '\r' : Bool)) = true)
    (hanch : (splitLines content).all
      (fun l => !hasSub brChars (l.drop 1)) = true) :
    tsUrlsOf u content = specSegURLs u content := by
  have hcr' : '\r' ∉ content := by
    rw [List.all_eq_true] at hcr
    intro hm
    have := hcr '\r' hm
    simp at this
  have hjoin : joinNl (splitLines content) = content := joinNl_splitLines content hcr'
  have hchars := splitLines_noCR_chars content hcr'
  have hanch' : ∀ l ∈ splitLines content, hasSub brChars (l.drop 1) = false := by
    rw [List.all_eq_true] at hanch
    intro l hl
    have := hanch l hl
    simpa using this
  have key := procLines_subByteRange (splitLines content)
    (fun l hl => (hchars l hl).1) (fun l hl => (hchars l hl).2) hanch'
  rw [hjoin] at key
  unfold tsUrlsOf specSegURLs
  rw [key]

/-- Witness for C8 (amended): five relative references against base
`http://host/path/` resolve to five absolute URLs under `http://host/path/`,
identically under the regex pipeline and the line-discard reading. -/
theorem parse_segment_lines_anchored_witness :
    tsUrlsOf "http://host/path/play.m3u8".data
        "s1.ts\ns2.ts\ns3.ts\ns4.ts\ns5.ts".data =
      specSegURLs "http://host/path/play.m3u8".data
        "s1.ts\ns2.ts\ns3.ts\ns4.ts\ns5.ts".data ∧
    tsUrlsOf "http://host/path/play.m3u8".data
        "s1.ts\ns2.ts\ns3.ts\ns4.ts\ns5.ts".data =
      ["http://host/path/s1.ts".data, "http://host/path/s2.ts".data,
        "http://host/path/s3.ts".data, "http://host/path/s4.ts".data,
        "http://host/path/s5.ts".data] ∧
    (tsUrlsOf "http://host/path/play.m3u8".data
        "s1.ts\ns2.ts\ns3.ts\ns4.ts\ns5.ts".data).all
      (fun l => l.take 17 = "http://host/path/".data) = true :=
  ⟨parse_segment_lines_anchored "http://host/path/play.m3u8".data
      "s1.ts\ns2.ts\ns3.ts\ns4.ts\ns5.ts".data (by decide) (by decide),
    by decide, by decide⟩

end M3U8
